import Mathlib

/-!
Verification of the retrieval core of the Macrocomm assistant backend
(server/api_server.py): the tokenizer, the paragraph chunker, the BM25
index (build, score, search) and the reindex lifecycle.

Python strings are modelled as lists of characters (Python `len` counts
code points, as does `List.length` on `List Char`).  Python `float`
arithmetic is modelled over the real numbers; the literals `0.5`, `0.75`,
`1.5`, `1e-9` denote the exact rationals the source writes.  Python `int`
is modelled as `Int`.
-/

namespace Macrocomm

/-! ### Tokenizer

Source: `_tokenise_norm(s) = re.findall(r"[a-z0-9][a-z0-9\-]+", s.lower())`.

`re.findall` scans left to right; a match begins at a character in
`[a-z0-9]` whose successor is in `[a-z0-9-]`, and greedily extends over
`[a-z0-9-]`.  Hence, per maximal run of `[a-z0-9-]` characters in the
lowered string, the scanner skips any leading hyphens (they cannot begin
a match) and emits the remainder of the run when it has at least two
characters; a run never yields more than one match because the first
match greedily reaches the run's end.  `tokAux` walks the string once,
accumulating the current run in reverse in `acc` and resolving it at
each separator via `emitRun`.
-/

/-- Membership in the character class `[a-z0-9]` (after lowering). -/
def isAlnumLower (c : Char) : Bool :=
  ('a' ≤ c && c ≤ 'z') || ('0' ≤ c && c ≤ '9')

/-- Membership in the character class `[a-z0-9-]`. -/
def isTokChar (c : Char) : Bool :=
  isAlnumLower c || c == '-'

/-- Resolve one maximal `[a-z0-9-]` run (held reversed in `acc`): drop the
leading hyphens, emit the rest when at least two characters remain. -/
def emitRun (acc : List Char) : List (List Char) :=
  if 2 ≤ (acc.reverse.dropWhile (fun c => !isAlnumLower c)).length then
    [acc.reverse.dropWhile (fun c => !isAlnumLower c)]
  else []

/-- One left-to-right pass of the `re.findall` scan over the lowered text. -/
def tokAux : List Char → List Char → List (List Char)
  | [], acc => emitRun acc
  | c :: cs, acc =>
    if isTokChar c then tokAux cs (c :: acc)
    else emitRun acc ++ tokAux cs []

/-- Model of `_tokenise_norm`: lowercase, then extract the regex matches. -/
def tokenise_norm (s : List Char) : List (List Char) :=
  tokAux (s.map Char.toLower) []

/-! ### Chunker

Source: `_chunk_text(text, max_chars=1200, overlap=200)`.

`paras = [p.strip() for p in re.split(r"\n\s*\n", text) if p.strip()]`,
then a greedy paragraph-packing loop with an overlap seed, flushed with
`"\n\n".join(buf)`.

`re.split(r"\n\s*\n", text)` cuts the text at every maximal whitespace
run that contains at least two newlines; the removed separator extends
from the first newline of the run to its last newline (the pattern must
both start and end with a newline, `\s*` is greedy and backtracks to the
last newline).  `reSplitAux` performs that scan in one pass: `piece`
accumulates the current fragment reversed, `ws` accumulates (reversed) a
pending whitespace run that began with a newline; a run is resolved when
a non-whitespace character or the end of input is reached.
-/

/-- Python's whitespace (`str.isspace`, the set matched by `\s`). -/
def isPySpace (c : Char) : Bool :=
  c == ' ' || ('\t' ≤ c && c ≤ '\r') ||
  (0x1c ≤ c.val && c.val ≤ 0x1f) ||
  c.val == 0x85 || c.val == 0xa0 || c.val == 0x1680 ||
  (0x2000 ≤ c.val && c.val ≤ 0x200a) ||
  c.val == 0x2028 || c.val == 0x2029 || c.val == 0x202f ||
  c.val == 0x205f || c.val == 0x3000

/-- Python `str.strip()`: remove leading and trailing whitespace. -/
def pyStrip (l : List Char) : List Char :=
  ((l.dropWhile isPySpace).reverse.dropWhile isPySpace).reverse

/-- One-pass scan implementing `re.split(r"\n\s*\n", ·)`; `piece` is the
current fragment (reversed), `ws` a pending whitespace run (reversed)
whose first character was a newline (`ws = []` when no run is pending). -/
def reSplitAux : List Char → List Char → List Char → List (List Char)
  | [], piece, ws =>
    if 2 ≤ ws.count '\n' then
      [piece.reverse, (ws.takeWhile (fun d => d ≠ '\n')).reverse]
    else [(ws ++ piece).reverse]
  | c :: cs, piece, ws =>
    if ws.isEmpty then
      if c = '\n' then reSplitAux cs piece [c]
      else reSplitAux cs (c :: piece) []
    else
      if isPySpace c then reSplitAux cs piece (c :: ws)
      else
        if 2 ≤ ws.count '\n' then
          piece.reverse :: reSplitAux cs (c :: ws.takeWhile (fun d => d ≠ '\n')) []
        else reSplitAux cs (c :: (ws ++ piece)) []

/-- Model of `re.split(r"\n\s*\n", text)`. -/
def reSplit (text : List Char) : List (List Char) :=
  reSplitAux text [] []

/-- The paragraph list: split on blank lines, strip, drop empties. -/
def parasOf (text : List Char) : List (List Char) :=
  ((reSplit text).map pyStrip).filter (fun p => !p.isEmpty)

/-- Model of `"\n\n".join(buf)`. -/
def joinParas (l : List (List Char)) : List Char :=
  List.intercalate [ '\n', '\n' ] l

/-- Model of Python `s[-n:]` for `n > 0`: the trailing `min n (len s)`
characters (the source only slices under the guard `overlap > 0`). -/
def takeRightL (n : Nat) (l : List Char) : List Char :=
  l.drop (l.length - n)

/-- The paragraph-packing loop of `_chunk_text`, one step per paragraph.
State: emitted `chunks`, current buffer `buf`, the running `buf_len`
counter (an `Int`, exactly as the Python integer arithmetic computes it). -/
def chunkLoop (maxc overlap : Int) :
    List (List Char) → List (List Char) → List (List Char) → Int →
    List (List Char)
  | [], chunks, buf, _ =>
    if buf = [] then chunks else chunks ++ [joinParas buf]
  | p :: ps, chunks, buf, blen =>
    if blen + (p.length : Int) + 2 ≤ maxc then
      chunkLoop maxc overlap ps chunks (buf ++ [p]) (blen + (p.length : Int) + 2)
    else
      -- flush the buffer (if non-empty), then reseed
      if (if buf = [] then chunks else chunks ++ [joinParas buf]) ≠ [] ∧
          0 < overlap then
        chunkLoop maxc overlap ps
          (if buf = [] then chunks else chunks ++ [joinParas buf])
          [takeRightL overlap.toNat
              ((if buf = [] then chunks else chunks ++ [joinParas buf]).getLastD []),
            p]
          (((takeRightL overlap.toNat
              ((if buf = [] then chunks else chunks ++ [joinParas buf]).getLastD [])).length : Int)
            + 2 + (p.length : Int))
      else
        chunkLoop maxc overlap ps
          (if buf = [] then chunks else chunks ++ [joinParas buf]) [p]
          (p.length : Int)

/-- Model of `_chunk_text`. -/
def chunk_text (text : List Char) (maxc overlap : Int) : List (List Char) :=
  chunkLoop maxc overlap (parasOf text) [] [] 0

/-! ### BM25 index

Source: `class BM25Index` over `Chunk[]`.  The constructor eagerly
computes `N`, `df` and `avgdl` from the immutable chunk list; we model
them as functions of the index, which is equivalent since the index is
never mutated.  Scores are Python floats, modelled over `ℝ`.
-/

/-- The `Chunk` dataclass: source filename, chunk text, cached tokens. -/
structure Chunk where
  source : List Char
  text : List Char
  tokens : List (List Char)
deriving DecidableEq

/-- Chunk construction as done in `build_bm25_retriever`:
`Chunk(source=src, text=ch, tokens=_tokenise_norm(ch))`. -/
def mkChunk (src text : List Char) : Chunk :=
  ⟨src, text, tokenise_norm text⟩

/-- The BM25 index: hyperparameters and the ordered chunk list. -/
structure BM25Index where
  k1 : ℝ
  b : ℝ
  chunks : List Chunk

/-- `self.N = len(chunks)`. -/
def BM25Index.N (idx : BM25Index) : ℕ :=
  idx.chunks.length

/-- `self.df`: for each chunk, each distinct token counts once, so
`df[t]` is the number of chunks whose token list contains `t` (and a
term is a key of the Counter iff its count is nonzero). -/
def BM25Index.df (idx : BM25Index) (t : List Char) : ℕ :=
  idx.chunks.countP (fun ch => ch.tokens.contains t)

/-- `tf = Counter(ch.tokens)`: occurrences of `t` in the chunk. -/
def tfc (ch : Chunk) (t : List Char) : ℕ :=
  ch.tokens.count t

/-- `dl = len(ch.tokens) or 1`. -/
def dlc (ch : Chunk) : ℕ :=
  if ch.tokens.length = 0 then 1 else ch.tokens.length

/-- `self.avgdl = (sum(len(ch.tokens)) / max(1, N)) if N else 0.0`. -/
noncomputable def BM25Index.avgdl (idx : BM25Index) : ℝ :=
  if idx.chunks.length = 0 then 0
  else ((((idx.chunks.map (fun ch => ch.tokens.length)).sum : ℕ)) : ℝ) /
    ((max 1 idx.chunks.length : ℕ) : ℝ)

/-- `BM25Index.score`: the running float accumulation `s`, one loop
iteration per query token; tokens absent from `df` are skipped. -/
noncomputable def BM25Index.score (idx : BM25Index) (q : List (List Char))
    (ch : Chunk) : ℝ :=
  q.foldl (fun s t =>
    if idx.df t = 0 then s
    else
      s + Real.log (1 + ((idx.N : ℝ) - (idx.df t : ℝ) + 0.5) / ((idx.df t : ℝ) + 0.5)) *
          ((tfc ch t : ℝ) * (idx.k1 + 1)) /
          max 1e-9 ((tfc ch t : ℝ) +
            idx.k1 * (1 - idx.b + idx.b *
              (if idx.avgdl = 0 then 1 else (dlc ch : ℝ) / idx.avgdl)))) 0

/-- Stable descending insertion by first component: the element `x` is
placed before the first list element whose key is `≤` its own, so an
earlier-listed element precedes later ones with an equal key. -/
noncomputable def insertDesc {α : Type} (x : ℝ × α) :
    List (ℝ × α) → List (ℝ × α)
  | [] => [x]
  | y :: ys => if y.1 ≤ x.1 then x :: y :: ys else y :: insertDesc x ys

/-- Model of `scored.sort(key=lambda x: x[0], reverse=True)`: Python's
sort is stable, and a stable descending sort by key has a unique output,
realised here by stable insertion sort. -/
noncomputable def sortDesc {α : Type} : List (ℝ × α) → List (ℝ × α)
  | [] => []
  | x :: xs => insertDesc x (sortDesc xs)

/-- `BM25Index.search`: tokenize, score every chunk, stable-sort
descending, return the first `max(1, k)` entries. -/
noncomputable def BM25Index.search (idx : BM25Index) (query : List Char)
    (k : Int) : List (ℝ × Chunk) :=
  ((sortDesc (idx.chunks.map (fun ch => (idx.score (tokenise_norm query) ch, ch)))).take
    (max 1 k).toNat)

/-- The chunk list `build_bm25_retriever` assembles from `(name, text)`
document pairs: each document is chunked with the default parameters. -/
def buildDocsChunks (docs : List (List Char × List Char)) : List Chunk :=
  (docs.map (fun d => (chunk_text d.2 1200 200).map (fun c => mkChunk d.1 c))).flatten

/-- `BM25Index(chunks)` with the default hyperparameters
`k1 = 1.5`, `b = 0.75`. -/
noncomputable def defaultIndex (chunks : List Chunk) : BM25Index :=
  ⟨1.5, 0.75, chunks⟩

/-! ### Score as a sum of per-term contributions -/

/-- The summand the scoring loop adds for one query term present in the
corpus (written exactly as the source expression). -/
noncomputable def termContribution (idx : BM25Index) (ch : Chunk)
    (t : List Char) : ℝ :=
  Real.log (1 + ((idx.N : ℝ) - (idx.df t : ℝ) + 0.5) / ((idx.df t : ℝ) + 0.5)) *
    ((tfc ch t : ℝ) * (idx.k1 + 1)) /
    max 1e-9 ((tfc ch t : ℝ) +
      idx.k1 * (1 - idx.b + idx.b *
        (if idx.avgdl = 0 then 1 else (dlc ch : ℝ) / idx.avgdl)))

/-! ### C3: the score matches the specified BM25 formula

The following three definitions are written from the specification's
words (section 4.4), to be compared with the source-derived
`BM25Index.score`. -/

/-- Spec: `idf(t) = ln(1 + (N - df(t) + 0.5) / (df(t) + 0.5))`. -/
noncomputable def idfSpec (idx : BM25Index) (t : List Char) : ℝ :=
  Real.log (1 + ((idx.N : ℝ) - (idx.df t : ℝ) + 0.5) / ((idx.df t : ℝ) + 0.5))

/-- Spec: `lengthNorm = 1 - b + b * (dl / averageChunkLength)`, the ratio
taken as `1.0` when `averageChunkLength` is 0, and `dl` as 1 for a chunk
with zero tokens (built into `dlc`). -/
noncomputable def lengthNormSpec (idx : BM25Index) (ch : Chunk) : ℝ :=
  1 - idx.b + idx.b * (if idx.avgdl = 0 then 1 else (dlc ch : ℝ) / idx.avgdl)

/-- Spec: the total score is the sum over query terms of
`idf(t) * (tf * (k1 + 1)) / max(1e-9, tf + k1 * lengthNorm)`, with terms
absent from the corpus contributing exactly 0. -/
noncomputable def scoreSpec (idx : BM25Index) (q : List (List Char))
    (ch : Chunk) : ℝ :=
  (q.map (fun t =>
    if idx.df t = 0 then 0
    else idfSpec idx t * ((tfc ch t : ℝ) * (idx.k1 + 1)) /
      max 1e-9 ((tfc ch t : ℝ) + idx.k1 * lengthNormSpec idx ch))).sum

/-! ### Reindex lifecycle

Source: the `/admin/reindex` handler

```
try:
    retriever = build_bm25_retriever()
    return JSONResponse({"status": "ok", "reindexed": True})
except Exception as e:
    return JSONResponse({"status": "error", "error": str(e)}, status_code=500)
```

The module-level `retriever` (None before startup) is the published
state.  `build_bm25_retriever()` performs file IO, so its outcome enters
the model as an `Except` value: `Except.ok` for a successful rebuild,
`Except.error` for any raised exception.  In Python, when the call
raises, the assignment to `retriever` never happens and the handler
returns the error body instead of letting the exception escape. -/

/-- The JSON body the reindex endpoint returns: ok, or an error status
carrying `str(e)` (returned, not raised). -/
inductive ReindexStatus where
  | ok : ReindexStatus
  | failed : List Char → ReindexStatus
deriving DecidableEq

/-- One invocation of the reindex handler: the new published state and
the response body. -/
def reindexStep (cur : Option BM25Index)
    (build : Except (List Char) BM25Index) :
    Option BM25Index × ReindexStatus :=
  match build with
  | Except.ok idx => (some idx, ReindexStatus.ok)
  | Except.error e => (cur, ReindexStatus.failed e)

/-- A query against the published state (`None` models the 503
"Retriever not ready" rejection). -/
noncomputable def serveQuery (st : Option BM25Index) (q : List Char)
    (k : Int) : Option (List (ℝ × Chunk)) :=
  st.map (fun idx => idx.search q k)

/-! ### The end-to-end two-document example -/

def exD1 : List Char := ("Macrocomm policy requires hard hats on site.").toList

def exD2 : List Char := ("Visitors must sign in at reception.").toList

def exSrc1 : List Char := ("doc1.txt").toList

def exSrc2 : List Char := ("doc2.txt").toList

def exC1 : Chunk := mkChunk exSrc1 exD1

def exC2 : Chunk := mkChunk exSrc2 exD2

noncomputable def exIdx : BM25Index :=
  defaultIndex (buildDocsChunks [(exSrc1, exD1), (exSrc2, exD2)])

def exQ : List (List Char) := [("hard").toList, ("hats").toList]

/-! ### C6: the overlap chain property -/

/-- The overlap relation between consecutive chunks: the trailing
`overlap` characters of the first (all of it, if shorter) are a prefix
of the second. -/
def ovlR (overlap : Int) (a c : List Char) : Prop :=
  takeRightL overlap.toNat a <+: c

/-! ### C1: the chunk length bound

The claim as stated fails: an overlap-seeded buffer starts at length
`len(tail) + 2 + len(p)`, which may already exceed `maxChars` even when
the paragraph `p` itself does not.  What does hold: a chunk exceeding
`maxChars` always ends with one of the input paragraphs and exceeds the
budget by at most the overlap seed plus the two separator characters. -/

/-- A chunk within the amended bound: within `maxChars`, or an overlap
seed (at most `overlap` characters) plus separator plus one paragraph
satisfying `Q`. -/
def goodChunk (maxc overlap : Int) (Q : List Char → Prop) (c : List Char) :
    Prop :=
  (c.length : Int) ≤ maxc ∨
  ∃ p, Q p ∧ p <:+ c ∧ c.length ≤ overlap.toNat + 2 + p.length

/-- Invariant of the running buffer: either untouched, or its `buf_len`
counter overcounts the joined length by exactly 2 (buffers grown from
empty) and fits the budget, or counts it exactly (seeded buffers) and
the joined text fits the budget or is itself a good chunk. -/
def bufInv (maxc overlap : Int) (Q : List Char → Prop)
    (buf : List (List Char)) (blen : Int) : Prop :=
  (buf = [] ∧ blen = 0) ∨
  (buf ≠ [] ∧
    ((blen = ((joinParas buf).length : Int) + 2 ∧ blen ≤ maxc) ∨
     (blen = ((joinParas buf).length : Int) ∧
       (blen ≤ maxc ∨
        ∃ p, Q p ∧ p <:+ joinParas buf ∧
          (joinParas buf).length ≤ overlap.toNat + 2 + p.length))))

/-- The concrete input refuting C1 as stated: two 8-character
paragraphs, `maxChars = 10`, `overlap = 3`. -/
def cexText : List Char := ("aaaaaaaa\n\nbbbbbbbb").toList

/-! ### Theorems -/

theorem emitRun_length {acc : List Char} {t : List Char}
    (h : t ∈ emitRun acc) : 2 ≤ t.length := by
  unfold emitRun at h
  split at h
  · rename_i hlen
    rw [List.mem_singleton] at h
    subst h
    exact hlen
  · cases h

theorem tokAux_length :
    ∀ (l acc : List Char) (t : List Char), t ∈ tokAux l acc → 2 ≤ t.length := by
  intro l
  induction l with
  | nil => intro acc t h; exact emitRun_length h
  | cons c cs ih =>
    intro acc t h
    unfold tokAux at h
    split at h
    · exact ih _ _ h
    · rcases List.mem_append.mp h with h | h
      · exact emitRun_length h
      · exact ih _ _ h

/-- Every term the tokenizer emits has at least two characters. -/
theorem tokenise_norm_length (s : List Char) :
    ∀ t ∈ tokenise_norm s, 2 ≤ t.length := by
  intro t h
  exact tokAux_length _ _ _ h

/-- C9: the tokenizer is a deterministic pure function, empty on the empty
string, never emits single-character terms, and sends "a b cd" to ["cd"]. -/
theorem tokenizer_deterministic_total (s : List Char) :
    tokenise_norm s = tokenise_norm s ∧
    (∀ t ∈ tokenise_norm s, 2 ≤ t.length) ∧
    tokenise_norm [] = [] ∧
    tokenise_norm (("a b cd").toList) = [("cd").toList] := by
  refine ⟨rfl, tokenise_norm_length s, by decide, by decide⟩

theorem score_eq_foldl (idx : BM25Index) (q : List (List Char)) (ch : Chunk) :
    idx.score q ch =
      q.foldl (fun s t =>
        if idx.df t = 0 then s else s + termContribution idx ch t) 0 :=
  rfl

theorem foldl_skip_add (idx : BM25Index) (ch : Chunk) :
    ∀ (q : List (List Char)) (a : ℝ),
      q.foldl (fun s t =>
          if idx.df t = 0 then s else s + termContribution idx ch t) a
        = a + (q.map (fun t =>
            if idx.df t = 0 then 0 else termContribution idx ch t)).sum := by
  intro q
  induction q with
  | nil => intro a; simp
  | cons t ts ih =>
    intro a
    by_cases h : idx.df t = 0
    · simp [h, ih]
    · simp [h, ih, add_assoc]

theorem score_eq_sum (idx : BM25Index) (q : List (List Char)) (ch : Chunk) :
    idx.score q ch = (q.map (fun t =>
      if idx.df t = 0 then 0 else termContribution idx ch t)).sum := by
  rw [score_eq_foldl, foldl_skip_add, zero_add]

/-- C3: for every index, chunk and query-term sequence, the score the
source computes equals the specified sum: each query term contributes
`idf(t) * (tf * (k1 + 1)) / max(1e-9, tf + k1 * lengthNorm)` with
`idf(t) = ln(1 + (N - df(t) + 0.5) / (df(t) + 0.5))`, `dl` taken as 1
for an empty chunk, the ratio `dl / averageChunkLength` taken as 1.0
when `averageChunkLength` is 0, and terms absent from the corpus
contributing exactly 0. -/
theorem score_matches_spec_formula (idx : BM25Index) (q : List (List Char))
    (ch : Chunk) : idx.score q ch = scoreSpec idx q ch := by
  rw [score_eq_sum]
  unfold scoreSpec termContribution idfSpec lengthNormSpec
  rfl

/-! ### Properties of the stable descending sort -/

theorem length_insertDesc {α : Type} (x : ℝ × α) (l : List (ℝ × α)) :
    (insertDesc x l).length = l.length + 1 := by
  induction l with
  | nil => rfl
  | cons y ys ih =>
    unfold insertDesc
    split
    · simp
    · simp [ih]

theorem length_sortDesc {α : Type} (l : List (ℝ × α)) :
    (sortDesc l).length = l.length := by
  induction l with
  | nil => rfl
  | cons x xs ih => simp [sortDesc, length_insertDesc, ih]

theorem mem_insertDesc {α : Type} {z x : ℝ × α} {l : List (ℝ × α)} :
    z ∈ insertDesc x l ↔ z = x ∨ z ∈ l := by
  induction l with
  | nil => simp [insertDesc]
  | cons y ys ih =>
    unfold insertDesc
    split
    · simp
    · simp [ih]
      tauto

theorem mem_sortDesc {α : Type} {z : ℝ × α} {l : List (ℝ × α)} :
    z ∈ sortDesc l ↔ z ∈ l := by
  induction l with
  | nil => simp [sortDesc]
  | cons x xs ih =>
    simp [sortDesc, mem_insertDesc, ih]

theorem insertDesc_pairwise {α : Type} {x : ℝ × α} {l : List (ℝ × α)}
    (h : l.Pairwise (fun a b => b.1 ≤ a.1)) :
    (insertDesc x l).Pairwise (fun a b => b.1 ≤ a.1) := by
  induction l with
  | nil => simp [insertDesc]
  | cons y ys ih =>
    rw [List.pairwise_cons] at h
    unfold insertDesc
    split
    · rename_i hyx
      refine List.pairwise_cons.mpr ⟨?_, List.pairwise_cons.mpr h⟩
      intro z hz
      rcases List.mem_cons.mp hz with hz | hz
      · exact hz ▸ hyx
      · exact le_trans (h.1 z hz) hyx
    · rename_i hyx
      refine List.pairwise_cons.mpr ⟨?_, ih h.2⟩
      intro z hz
      rcases mem_insertDesc.mp hz with hz | hz
      · exact hz ▸ le_of_lt (lt_of_not_le hyx)
      · exact h.1 z hz

theorem sortDesc_pairwise {α : Type} (l : List (ℝ × α)) :
    (sortDesc l).Pairwise (fun a b => b.1 ≤ a.1) := by
  induction l with
  | nil => simp [sortDesc]
  | cons x xs ih => exact insertDesc_pairwise ih

theorem filter_insertDesc {α : Type} (v : ℝ) (x : ℝ × α) (l : List (ℝ × α)) :
    (insertDesc x l).filter (fun z => decide (z.1 = v))
      = if x.1 = v then x :: l.filter (fun z => decide (z.1 = v))
        else l.filter (fun z => decide (z.1 = v)) := by
  induction l with
  | nil =>
    unfold insertDesc
    by_cases hx : x.1 = v
    · simp [List.filter_cons, hx]
    · simp [List.filter_cons, hx]
  | cons y ys ih =>
    unfold insertDesc
    split
    · rename_i hyx
      by_cases hx : x.1 = v
      · simp [List.filter_cons, hx]
      · simp [List.filter_cons, hx]
    · rename_i hyx
      by_cases hx : x.1 = v
      · have hy : ¬ y.1 = v := by
          intro h
          exact hyx (le_of_eq (h.trans hx.symm))
        simp [List.filter_cons, hx, hy, ih]
      · simp [List.filter_cons, hx, ih]

theorem filter_sortDesc {α : Type} (v : ℝ) (l : List (ℝ × α)) :
    (sortDesc l).filter (fun z => decide (z.1 = v))
      = l.filter (fun z => decide (z.1 = v)) := by
  induction l with
  | nil => rfl
  | cons x xs ih =>
    by_cases hx : x.1 = v
    · simp [sortDesc, filter_insertDesc, List.filter_cons, hx, ih]
    · simp [sortDesc, filter_insertDesc, List.filter_cons, hx, ih]

theorem sortDesc_of_const {α : Type} :
    ∀ (l : List (ℝ × α)), (∀ x ∈ l, x.1 = 0) → sortDesc l = l := by
  intro l
  induction l with
  | nil => intro _; rfl
  | cons x xs ih =>
    intro h
    have hxs := ih (fun y hy => h y (List.mem_cons_of_mem _ hy))
    unfold sortDesc
    rw [hxs]
    cases xs with
    | nil => rfl
    | cons y ys =>
      unfold insertDesc
      rw [if_pos]
      rw [h y (by simp), h x (by simp)]

theorem filter_take_isPre {α : Type} (p : α → Bool) (n : ℕ) (l : List α) :
    (l.take n).filter p <+: l.filter p :=
  ⟨(l.drop n).filter p, by rw [← List.filter_append, List.take_append_drop]⟩

/-- C4: the sequence `search` returns is sorted in descending score
order, and entries with equal scores keep the index's original chunk
insertion order: for every score value, the result's entries with that
score form a prefix of the scored chunk list's entries with that score,
hence appear in insertion order. -/
theorem search_sorted_and_stable (idx : BM25Index) (query : List Char)
    (k : Int) :
    (idx.search query k).Pairwise (fun a b => b.1 ≤ a.1) ∧
    ∀ v : ℝ,
      (idx.search query k).filter (fun z => decide (z.1 = v)) <+:
        ((idx.chunks.map (fun ch => (idx.score (tokenise_norm query) ch, ch))).filter
          (fun z => decide (z.1 = v))) := by
  constructor
  · exact (sortDesc_pairwise _).sublist (List.take_sublist _ _)
  · intro v
    have h1 := filter_take_isPre (fun z => decide (z.1 = v)) (max 1 k).toNat
      (sortDesc (idx.chunks.map (fun ch => (idx.score (tokenise_norm query) ch, ch))))
    rw [filter_sortDesc] at h1
    exact h1

/-- C5: `search` returns exactly `min (max 1 k) N` entries (at least one
whenever the index is non-empty, even for `k ≤ 0`), and returns the
empty sequence exactly when the index was built from zero chunks. -/
theorem search_result_count (idx : BM25Index) (query : List Char) (k : Int) :
    ((idx.search query k).length : Int) = min (max 1 k) (idx.chunks.length : Int) ∧
    (idx.search query k = [] ↔ idx.chunks = []) := by
  have hlen : (idx.search query k).length
      = min (max 1 k).toNat idx.chunks.length := by
    unfold BM25Index.search
    rw [List.length_take, length_sortDesc, List.length_map]
  have hk : (0 : Int) ≤ max 1 k := le_trans zero_le_one (le_max_left _ _)
  constructor
  · rw [hlen]
    push_cast
    rw [Int.toNat_of_nonneg hk]
  · rw [← List.length_eq_zero, hlen]
    have h1 : 1 ≤ (max 1 k).toNat := by omega
    rw [← List.length_eq_zero]
    omega

/-- C8: every BM25 score is non-negative (for a non-negative `k1`, as in
the default configuration), and hence so is every score value exposed in
search results. -/
theorem scores_nonneg (idx : BM25Index) (q : List (List Char)) (ch : Chunk)
    (query : List Char) (k : Int) (hk1 : 0 ≤ idx.k1) :
    0 ≤ idx.score q ch ∧ ∀ x ∈ idx.search query k, 0 ≤ x.1 := by
  have key : ∀ (q' : List (List Char)) (ch' : Chunk), 0 ≤ idx.score q' ch' := by
    intro q' ch'
    rw [score_eq_sum]
    apply List.sum_nonneg
    intro x hx
    simp only [List.mem_map] at hx
    obtain ⟨t, _, rfl⟩ := hx
    by_cases h : idx.df t = 0
    · simp [h]
    · rw [if_neg h]
      unfold termContribution
      apply div_nonneg
      · apply mul_nonneg
        · apply Real.log_nonneg
          have hdf : idx.df t ≤ idx.N := List.countP_le_length _
          have hcast : (idx.df t : ℝ) ≤ (idx.N : ℝ) := Nat.cast_le.mpr hdf
          have h1 : (0:ℝ) ≤ ((idx.N : ℝ) - (idx.df t : ℝ) + 0.5) := by linarith
          have h2 : (0:ℝ) < (idx.df t : ℝ) + 0.5 := by positivity
          have h3 := div_nonneg h1 (le_of_lt h2)
          linarith
        · apply mul_nonneg (Nat.cast_nonneg _)
          linarith
      · exact le_trans (by norm_num) (le_max_left _ _)
  refine ⟨key q ch, ?_⟩
  intro x hx
  have hx1 : x ∈ sortDesc (idx.chunks.map
      (fun ch' => (idx.score (tokenise_norm query) ch', ch'))) :=
    List.mem_of_mem_take hx
  rw [mem_sortDesc] at hx1
  simp only [List.mem_map] at hx1
  obtain ⟨ch', _, rfl⟩ := hx1
  exact key _ _

/-- C10: when no query token occurs anywhere in the corpus, `search`
still returns the first `max(1, k)` chunks of the index, each paired
with score exactly 0, in original insertion order. -/
theorem search_no_corpus_token (idx : BM25Index) (query : List Char) (k : Int)
    (hN : 1 ≤ idx.chunks.length)
    (h : ∀ t ∈ tokenise_norm query, idx.df t = 0) :
    idx.search query k =
      (idx.chunks.map (fun ch => ((0:ℝ), ch))).take (max 1 k).toNat := by
  have hscore : ∀ ch ∈ idx.chunks, idx.score (tokenise_norm query) ch = 0 := by
    intro ch _
    rw [score_eq_sum]
    apply List.sum_eq_zero
    intro x hx
    simp only [List.mem_map] at hx
    obtain ⟨t, ht, rfl⟩ := hx
    rw [if_pos (h t ht)]
  unfold BM25Index.search
  have hmap : idx.chunks.map (fun ch => (idx.score (tokenise_norm query) ch, ch))
      = idx.chunks.map (fun ch => ((0:ℝ), ch)) := by
    apply List.map_congr_left
    intro ch hch
    rw [hscore ch hch]
  rw [hmap, sortDesc_of_const]
  intro x hx
  simp only [List.mem_map] at hx
  obtain ⟨ch, _, rfl⟩ := hx
  rfl

/-- C7: when the rebuild pipeline fails, the previously published index
is left unchanged — every subsequent query behaves exactly as before the
reindex attempt — and the failure is reported as an error status value
rather than an exception escaping the handler. -/
theorem reindex_failure_keeps_index (cur : Option BM25Index) (e : List Char)
    (q : List Char) (k : Int) :
    (reindexStep cur (Except.error e)).1 = cur ∧
    (reindexStep cur (Except.error e)).2 = ReindexStatus.failed e ∧
    serveQuery (reindexStep cur (Except.error e)).1 q k = serveQuery cur q k :=
  ⟨rfl, rfl, rfl⟩

theorem exIdx_chunks : exIdx.chunks = [exC1, exC2] := by decide

theorem exIdx_avgdl : exIdx.avgdl = 13 / 2 := by
  unfold BM25Index.avgdl
  rw [if_neg (by decide : ¬ exIdx.chunks.length = 0)]
  have h1 : (exIdx.chunks.map (fun ch => ch.tokens.length)).sum = 13 := by decide
  have h2 : exIdx.chunks.length = 2 := by decide
  rw [h1, h2]
  norm_num

theorem termContribution_of_tf_zero (idx : BM25Index) (ch : Chunk)
    (t : List Char) (h : tfc ch t = 0) : termContribution idx ch t = 0 := by
  unfold termContribution
  rw [h]
  simp

theorem exIdx_score_exC2 : exIdx.score exQ exC2 = 0 := by
  rw [score_eq_sum]
  have e1 : (if exIdx.df (("hard").toList) = 0 then (0:ℝ)
      else termContribution exIdx exC2 (("hard").toList)) = 0 := by
    rw [if_neg (by decide)]
    exact termContribution_of_tf_zero _ _ _ (by decide)
  have e2 : (if exIdx.df (("hats").toList) = 0 then (0:ℝ)
      else termContribution exIdx exC2 (("hats").toList)) = 0 := by
    rw [if_neg (by decide)]
    exact termContribution_of_tf_zero _ _ _ (by decide)
  simp only [exQ, List.map_cons, List.map_nil, List.sum_cons, List.sum_nil]
  rw [e1, e2]
  norm_num

theorem exTermContribution_pos (t : List Char) (hdf : exIdx.df t = 1)
    (htf : tfc exC1 t = 1) : 0 < termContribution exIdx exC1 t := by
  unfold termContribution
  rw [hdf, htf, exIdx_avgdl]
  have hN : exIdx.N = 2 := by decide
  have hd : dlc exC1 = 7 := by decide
  have hk1 : exIdx.k1 = 1.5 := rfl
  have hb : exIdx.b = 0.75 := rfl
  rw [hN, hd, hk1, hb]
  rw [if_neg (by norm_num : ¬ (13 / 2 : ℝ) = 0)]
  apply div_pos
  · apply mul_pos
    · apply Real.log_pos
      push_cast
      norm_num
    · push_cast
      norm_num
  · exact lt_of_lt_of_le (by norm_num) (le_max_left _ _)

theorem exIdx_score_exC1_pos : 0 < exIdx.score exQ exC1 := by
  rw [score_eq_sum]
  simp only [exQ, List.map_cons, List.map_nil, List.sum_cons, List.sum_nil]
  rw [if_neg (by decide : ¬ exIdx.df (("hard").toList) = 0),
    if_neg (by decide : ¬ exIdx.df (("hats").toList) = 0), add_zero]
  exact add_pos
    (exTermContribution_pos _ (by decide) (by decide))
    (exTermContribution_pos _ (by decide) (by decide))

theorem exIdx_search_hard_hats :
    exIdx.search (("hard hats").toList) 1 = [(exIdx.score exQ exC1, exC1)] := by
  unfold BM25Index.search
  have htok : tokenise_norm (("hard hats").toList) = exQ := by decide
  rw [htok, exIdx_chunks]
  simp only [List.map_cons, List.map_nil]
  have hle : exIdx.score exQ exC2 ≤ exIdx.score exQ exC1 := by
    rw [exIdx_score_exC2]
    exact le_of_lt exIdx_score_exC1_pos
  simp only [sortDesc, insertDesc]
  rw [if_pos hle]
  norm_num

/-- C2: for the two-document corpus, chunked with the default
`maxChars = 1200`, each document yields exactly one chunk; on the index
built from those chunks, `search("hard hats", k = 1)` returns exactly
the first document's chunk with a positive score, the second document's
chunk being absent from the result and scoring 0. -/
theorem end_to_end_two_docs :
    chunk_text exD1 1200 200 = [exD1] ∧
    chunk_text exD2 1200 200 = [exD2] ∧
    exIdx.search (("hard hats").toList) 1 = [(exIdx.score exQ exC1, exC1)] ∧
    0 < exIdx.score exQ exC1 ∧
    exIdx.score exQ exC2 = 0 :=
  ⟨by decide, by decide, exIdx_search_hard_hats, exIdx_score_exC1_pos,
    exIdx_score_exC2⟩

/-! ### Structure lemmas for the chunk buffer -/

theorem joinParas_singleton (p : List Char) : joinParas [p] = p := by
  simp [joinParas, List.intercalate]

theorem joinParas_cons_cons (p q : List Char) (l : List (List Char)) :
    joinParas (p :: q :: l) = p ++ '\n' :: '\n' :: joinParas (q :: l) := by
  simp [joinParas, List.intercalate, List.intersperse]

theorem joinParas_two (a b : List Char) :
    joinParas [a, b] = a ++ '\n' :: '\n' :: b := by
  rw [joinParas_cons_cons, joinParas_singleton]

theorem joinParas_append (l : List (List Char)) (p : List Char) (h : l ≠ []) :
    joinParas (l ++ [p]) = joinParas l ++ '\n' :: '\n' :: p := by
  induction l with
  | nil => exact absurd rfl h
  | cons q l2 ih =>
    cases l2 with
    | nil => rw [List.cons_append, List.nil_append, joinParas_two, joinParas_singleton]
    | cons r l3 =>
      have hih := ih (by simp)
      simp only [List.cons_append] at hih ⊢
      rw [joinParas_cons_cons q r (l3 ++ [p]), hih, joinParas_cons_cons q r l3]
      simp

theorem joinParas_append_length (buf : List (List Char)) (p : List Char)
    (hne : buf ≠ []) :
    ((joinParas (buf ++ [p])).length : Int)
      = ((joinParas buf).length : Int) + 2 + (p.length : Int) := by
  rw [joinParas_append _ _ hne]
  simp [List.length_append]
  omega

theorem joinParas_two_length (a b : List Char) :
    ((joinParas [a, b]).length : Int) = (a.length : Int) + 2 + (b.length : Int) := by
  rw [joinParas_two]
  simp [List.length_append]
  omega

theorem takeRightL_length_le (n : ℕ) (l : List Char) :
    (takeRightL n l).length ≤ n := by
  unfold takeRightL
  rw [List.length_drop]
  omega

theorem getLastD_eq_getLast {α : Type} {l : List α} (h : l ≠ []) (d : α) :
    l.getLastD d = l.getLast h := by
  rw [List.getLastD_eq_getLast?, List.getLast?_eq_getLast l h]
  rfl

theorem chain_append_singleton {R : List Char → List Char → Prop}
    {l : List (List Char)} {x : List Char} (hc : l.Chain' R)
    (hx : ∀ h : l ≠ [], R (l.getLast h) x) : (l ++ [x]).Chain' R := by
  rw [List.chain'_append]
  refine ⟨hc, List.chain'_singleton _, ?_⟩
  intro y hy z hz
  have hl : l ≠ [] := by
    intro he
    subst he
    simp at hy
  rw [List.getLast?_eq_getLast l hl] at hy
  simp only [Option.mem_def, Option.some.injEq] at hy
  simp only [List.head?_cons, Option.mem_def, Option.some.injEq] at hz
  rw [← hy, ← hz]
  exact hx hl

theorem chunkLoop_chain (maxc overlap : Int) (hov : 0 < overlap) :
    ∀ (ps chunks buf : List (List Char)) (blen : Int),
      (buf = [] → chunks = []) →
      chunks.Chain' (ovlR overlap) →
      (∀ h : chunks ≠ [], buf ≠ [] → ovlR overlap (chunks.getLast h) (joinParas buf)) →
      (chunkLoop maxc overlap ps chunks buf blen).Chain' (ovlR overlap) := by
  intro ps
  induction ps with
  | nil =>
    intro chunks buf blen hbe hchain hlast
    rw [chunkLoop]
    by_cases hb : buf = []
    · rw [if_pos hb]
      exact hchain
    · rw [if_neg hb]
      exact chain_append_singleton hchain (fun h => hlast h hb)
  | cons p ps ih =>
    intro chunks buf blen hbe hchain hlast
    rw [chunkLoop]
    by_cases hfit : blen + (p.length : Int) + 2 ≤ maxc
    · rw [if_pos hfit]
      apply ih
      · intro h
        simp at h
      · exact hchain
      · intro h _
        have hbne : buf ≠ [] := by
          intro hb
          exact h (hbe hb)
        rw [joinParas_append _ _ hbne]
        exact (hlast h hbne).trans (List.prefix_append _ _)
    · rw [if_neg hfit]
      by_cases hb : buf = []
      · have hce := hbe hb
        rw [if_pos hb, hce]
        rw [if_neg (by simp [hov])]
        apply ih
        · intro _
          rfl
        · exact List.chain'_nil
        · intro h
          exact absurd rfl h
      · rw [if_neg hb]
        by_cases hg : (chunks ++ [joinParas buf] ≠ [] ∧ 0 < overlap)
        · rw [if_pos hg]
          apply ih
          · intro h
            simp at h
          · exact chain_append_singleton hchain (fun h => hlast h hb)
          · intro h _
            rw [joinParas_two]
            rw [getLastD_eq_getLast h]
            exact List.prefix_append _ _
        · exact absurd ⟨by simp, hov⟩ hg

theorem chunk_text_chain (text : List Char) (maxc overlap : Int)
    (hov : 0 < overlap) :
    (chunk_text text maxc overlap).Chain' (ovlR overlap) :=
  chunkLoop_chain maxc overlap hov (parasOf text) [] [] 0
    (fun _ => rfl) List.chain'_nil (fun h => absurd rfl h)

/-- C6: for `overlap > 0`, whenever chunking produces consecutive chunks
`i` and `i+1`, the trailing `overlap` characters of chunk `i` (the whole
of chunk `i` if it is shorter than `overlap`) are a prefix of chunk
`i+1`. -/
theorem chunk_overlap_holds (text : List Char) (maxc overlap : Int)
    (hov : 0 < overlap) (i : ℕ)
    (hi : i + 1 < (chunk_text text maxc overlap).length) :
    takeRightL overlap.toNat ((chunk_text text maxc overlap).getD i []) <+:
      (chunk_text text maxc overlap).getD (i + 1) [] := by
  have hc := chunk_text_chain text maxc overlap hov
  rw [List.chain'_iff_get] at hc
  have h2 := hc i (by omega)
  have e1 : (chunk_text text maxc overlap).getD i []
      = (chunk_text text maxc overlap).get ⟨i, by omega⟩ := by
    rw [List.getD_eq_getElem?_getD, List.getElem?_eq_getElem (by omega : i < (chunk_text text maxc overlap).length)]
    rfl
  have e2 : (chunk_text text maxc overlap).getD (i + 1) []
      = (chunk_text text maxc overlap).get ⟨i + 1, hi⟩ := by
    rw [List.getD_eq_getElem?_getD, List.getElem?_eq_getElem hi]
    rfl
  rw [e1, e2]
  exact h2

/-- Witness for C6 at a concrete input: two chunks with overlap 3. -/
theorem chunk_overlap_holds_witness :
    (0 : Int) < 3 ∧
    0 + 1 < (chunk_text (("aaaaaaaa\n\nbbbbbbbb").toList) 10 3).length ∧
    takeRightL ((3 : Int)).toNat
        ((chunk_text (("aaaaaaaa\n\nbbbbbbbb").toList) 10 3).getD 0 []) <+:
      (chunk_text (("aaaaaaaa\n\nbbbbbbbb").toList) 10 3).getD 1 [] :=
  ⟨by decide, by decide,
    chunk_overlap_holds _ 10 3 (by decide) 0 (by decide)⟩

theorem bufInv_flush {maxc overlap : Int} {Q : List Char → Prop}
    {buf : List (List Char)} {blen : Int} (hne : buf ≠ [])
    (hinv : bufInv maxc overlap Q buf blen) :
    goodChunk maxc overlap Q (joinParas buf) := by
  rcases hinv with ⟨hb, _⟩ | ⟨_, h⟩
  · exact absurd hb hne
  · rcases h with ⟨hb, hle⟩ | ⟨hb, h2⟩
    · left
      omega
    · rcases h2 with hle | hex
      · left
        omega
      · right
        exact hex

theorem bufInv_seed_tail {maxc overlap : Int} {Q : List Char → Prop}
    (p tl : List Char) (hQp : Q p) (htl : tl.length ≤ overlap.toNat) :
    bufInv maxc overlap Q [tl, p] ((tl.length : Int) + 2 + (p.length : Int)) := by
  right
  refine ⟨by simp, Or.inr ⟨?_, Or.inr ⟨p, hQp, ?_, ?_⟩⟩⟩
  · rw [joinParas_two_length]
  · rw [joinParas_two]
    exact ⟨tl ++ [ '\n', '\n' ], by simp⟩
  · rw [joinParas_two]
    simp [List.length_append]
    omega

theorem bufInv_seed_single {maxc overlap : Int} {Q : List Char → Prop}
    (p : List Char) (hQp : Q p) :
    bufInv maxc overlap Q [p] (p.length : Int) := by
  right
  refine ⟨by simp, Or.inr ⟨by rw [joinParas_singleton],
    Or.inr ⟨p, hQp, ?_, ?_⟩⟩⟩
  · rw [joinParas_singleton]
  · rw [joinParas_singleton]
    omega

theorem chunkLoop_good (maxc overlap : Int) (Q : List Char → Prop) :
    ∀ (ps chunks buf : List (List Char)) (blen : Int),
      (∀ p ∈ ps, Q p) →
      (∀ c ∈ chunks, goodChunk maxc overlap Q c) →
      bufInv maxc overlap Q buf blen →
      ∀ c ∈ chunkLoop maxc overlap ps chunks buf blen,
        goodChunk maxc overlap Q c := by
  intro ps
  induction ps with
  | nil =>
    intro chunks buf blen hQ hchunks hinv c hc
    rw [chunkLoop] at hc
    by_cases hb : buf = []
    · rw [if_pos hb] at hc
      exact hchunks c hc
    · rw [if_neg hb] at hc
      rcases List.mem_append.mp hc with hc | hc
      · exact hchunks c hc
      · rw [List.mem_singleton] at hc
        subst hc
        exact bufInv_flush hb hinv
  | cons p ps ih =>
    intro chunks buf blen hQ hchunks hinv c hc
    have hQp : Q p := hQ p (List.mem_cons_self _ _)
    have hQ2 : ∀ q ∈ ps, Q q := fun q hq => hQ q (List.mem_cons_of_mem _ hq)
    rw [chunkLoop] at hc
    by_cases hfit : blen + (p.length : Int) + 2 ≤ maxc
    · rw [if_pos hfit] at hc
      refine ih chunks (buf ++ [p]) _ hQ2 hchunks ?_ c hc
      rcases hinv with ⟨hb, hbl⟩ | ⟨hbne, hrest⟩
      · subst hb
        subst hbl
        right
        refine ⟨by simp, Or.inl ⟨?_, hfit⟩⟩
        rw [List.nil_append, joinParas_singleton]
        omega
      · right
        have hlen := joinParas_append_length buf p hbne
        refine ⟨by simp, ?_⟩
        rcases hrest with ⟨hb, hle⟩ | ⟨hb, h2⟩
        · exact Or.inl ⟨by omega, by omega⟩
        · exact Or.inr ⟨by omega, Or.inl (by omega)⟩
    · rw [if_neg hfit] at hc
      by_cases hb : buf = []
      · rw [if_pos hb] at hc
        by_cases hg : (chunks ≠ [] ∧ 0 < overlap)
        · rw [if_pos hg] at hc
          exact ih _ _ _ hQ2 hchunks
            (bufInv_seed_tail p _ hQp (takeRightL_length_le _ _)) c hc
        · rw [if_neg hg] at hc
          exact ih _ _ _ hQ2 hchunks (bufInv_seed_single p hQp) c hc
      · rw [if_neg hb] at hc
        have hflush : ∀ c2 ∈ chunks ++ [joinParas buf],
            goodChunk maxc overlap Q c2 := by
          intro c2 hc2
          rcases List.mem_append.mp hc2 with hc2 | hc2
          · exact hchunks c2 hc2
          · rw [List.mem_singleton] at hc2
            subst hc2
            exact bufInv_flush hb hinv
        by_cases hg : (chunks ++ [joinParas buf] ≠ [] ∧ 0 < overlap)
        · rw [if_pos hg] at hc
          exact ih _ _ _ hQ2 hflush
            (bufInv_seed_tail p _ hQp (takeRightL_length_le _ _)) c hc
        · rw [if_neg hg] at hc
          exact ih _ _ _ hQ2 hflush (bufInv_seed_single p hQp) c hc

/-- C1 counterexample: with `maxChars = 10`, `overlap = 3`, the text
"aaaaaaaa\n\nbbbbbbbb" yields the chunk "aaa\n\nbbbbbbbb" of length 13,
which exceeds `maxChars` yet is not a paragraph of the input — the
overlap seed plus a fitting paragraph overflows the budget. -/
theorem chunk_bound_counterexample :
    ¬ (∀ c ∈ chunk_text cexText 10 3,
        (c.length : Int) ≤ 10 ∨ (c ∈ parasOf cexText ∧ 10 < (c.length : Int))) := by
  decide

/-- C1 amended: every chunk the Chunker emits either has length at most
`maxChars`, or ends with one of the input paragraphs and has length at
most `max(overlap, 0) + 2 + len(p)` — i.e. the only chunks exceeding
`maxChars` are a single oversized paragraph, possibly preceded by an
overlap seed of at most `overlap` characters and the two-character
separator. -/
theorem chunk_bound_amended (text : List Char) (maxc overlap : Int) :
    ∀ c ∈ chunk_text text maxc overlap,
      (c.length : Int) ≤ maxc ∨
      ∃ p ∈ parasOf text, p <:+ c ∧ c.length ≤ overlap.toNat + 2 + p.length := by
  intro c hc
  have h := chunkLoop_good maxc overlap (fun q => q ∈ parasOf text)
    (parasOf text) [] [] 0 (fun q hq => hq)
    (fun c2 hc2 => absurd hc2 (List.not_mem_nil _))
    (Or.inl ⟨rfl, rfl⟩) c hc
  rcases h with h | ⟨p, hp, hsuf, hlen⟩
  · exact Or.inl h
  · exact Or.inr ⟨p, hp, hsuf, hlen⟩

/-- Witness for the amended C1 at the counterexample input: the
oversized chunk is covered by the overlap-seeded case. -/
theorem chunk_bound_amended_witness :
    (("aaa\n\nbbbbbbbb").toList ∈ chunk_text cexText 10 3) ∧
    (((("aaa\n\nbbbbbbbb").toList).length : Int) ≤ 10 ∨
      ∃ p ∈ parasOf cexText, p <:+ ("aaa\n\nbbbbbbbb").toList ∧
        (("aaa\n\nbbbbbbbb").toList).length ≤ (3 : Int).toNat + 2 + p.length) :=
  ⟨by decide, chunk_bound_amended cexText 10 3 _ (by decide)⟩

/-- Witness for C9 at the concrete example input. -/
theorem tokenizer_deterministic_total_witness :
    tokenise_norm (("a b cd").toList) = [("cd").toList] :=
  (tokenizer_deterministic_total (("a b cd").toList)).2.2.2

/-- Witness for C8 on the concrete two-document index (default
`k1 = 1.5`). -/
theorem scores_nonneg_witness :
    0 ≤ exIdx.k1 ∧
    (0 ≤ exIdx.score exQ exC1 ∧
      ∀ x ∈ exIdx.search (("hard").toList) 2, 0 ≤ x.1) :=
  ⟨(by norm_num : (0:ℝ) ≤ 1.5),
    scores_nonneg exIdx exQ exC1 (("hard").toList) 2 (by norm_num : (0:ℝ) ≤ 1.5)⟩

/-- Witness for C10 on the concrete two-document index, with a query
none of whose tokens occur in the corpus. -/
theorem search_no_corpus_token_witness :
    1 ≤ exIdx.chunks.length ∧
    (∀ t ∈ tokenise_norm (("zz qq").toList), exIdx.df t = 0) ∧
    exIdx.search (("zz qq").toList) 5 =
      (exIdx.chunks.map (fun ch => ((0:ℝ), ch))).take ((max 1 5 : Int)).toNat :=
  ⟨by decide, by decide,
    search_no_corpus_token exIdx (("zz qq").toList) 5 (by decide) (by decide)⟩

end Macrocomm
